import Mathlib

/-!
Verification of the sidekick-cli request-lifecycle core against its
specification.  The definitions below are a shallow embedding of the
Python sources under `src/sidekick/`: pure functions become Lean
functions, the mutable session becomes an explicit `SessionState` record
that is threaded through, terminal output becomes an explicit trace of
`Ui` events, and Python exceptions become `Except` results.  Definition
names follow the Python names (leading underscores dropped).
-/

namespace Sidekick

/-! ## JSON values and parsing

`repl._parse_args` calls `json.loads` on string arguments.  We model the
JSON data format with `Json` and a recursive-descent parser faithful to
Python's `json.loads` defaults: standard JSON plus the `NaN` /
`Infinity` / `-Infinity` constants, whitespace tolerance, string escape
sequences, rejection of raw control characters in strings, and rejection
of trailing data.  Numbers are kept as their lexemes (no claim inspects
numeric values). -/

inductive Json where
  | null
  | bool (b : Bool)
  | num (lexeme : String)
  | str (s : String)
  | arr (elems : List Json)
  | obj (fields : List (String × Json))
  deriving Repr

/-- The opening curly brace character (written via its code point). -/
def lbrace : Char := Char.ofNat 123

/-- The closing curly brace character (written via its code point). -/
def rbrace : Char := Char.ofNat 125

/-- JSON whitespace characters accepted by Python's parser. -/
def isJsonWs (c : Char) : Bool := c = ' ' || c = '\t' || c = '\n' || c = '\r'

/-- Drop leading JSON whitespace. -/
def skipWs : List Char → List Char
  | [] => []
  | c :: cs => if isJsonWs c then skipWs cs else c :: cs

/-- Value of a hexadecimal digit, if the character is one. -/
def hexVal (c : Char) : Option Nat :=
  if '0' ≤ c ∧ c ≤ '9' then some (c.toNat - '0'.toNat)
  else if 'a' ≤ c ∧ c ≤ 'f' then some (c.toNat - 'a'.toNat + 10)
  else if 'A' ≤ c ∧ c ≤ 'F' then some (c.toNat - 'A'.toNat + 10)
  else none

/-- Parse the body of a JSON string (the opening quote already
consumed), returning the decoded string and the remaining input.
Escapes and the strict-mode rejection of raw control characters follow
Python's `json.loads`. -/
def parseJStr : Nat → List Char → Option (String × List Char)
  | 0, _ => none
  | _ + 1, [] => none
  | fuel + 1, c :: cs =>
    if c = '"' then some ("", cs)
    else if c = '\\' then
      match cs with
      | [] => none
      | e :: cs2 =>
        let cont : Char → List Char → Option (String × List Char) := fun ch cs3 =>
          match parseJStr fuel cs3 with
          | some (s, rest) => some (String.mk (ch :: s.data), rest)
          | none => none
        if e = '"' then cont '"' cs2
        else if e = '\\' then cont '\\' cs2
        else if e = '/' then cont '/' cs2
        else if e = 'b' then cont (Char.ofNat 8) cs2
        else if e = 'f' then cont (Char.ofNat 12) cs2
        else if e = 'n' then cont '\n' cs2
        else if e = 'r' then cont '\r' cs2
        else if e = 't' then cont '\t' cs2
        else if e = 'u' then
          match cs2 with
          | h1 :: h2 :: h3 :: h4 :: cs3 =>
            match hexVal h1, hexVal h2, hexVal h3, hexVal h4 with
            | some a, some b, some c2, some d =>
              cont (Char.ofNat (a * 4096 + b * 256 + c2 * 16 + d)) cs3
            | _, _, _, _ => none
          | _ => none
        else none
    else if c.toNat < 32 then none
    else
      match parseJStr fuel cs with
      | some (s, rest) => some (String.mk (c :: s.data), rest)
      | none => none

/-- Split off a maximal run of decimal digits. -/
def takeDigits : List Char → List Char × List Char
  | [] => ([], [])
  | c :: cs =>
    if c.isDigit then
      let (d, r) := takeDigits cs
      (c :: d, r)
    else ([], c :: cs)

/-- Match a literal character sequence, returning the rest on success. -/
def stripLit : List Char → List Char → Option (List Char)
  | [], l => some l
  | _ :: _, [] => none
  | p :: ps, c :: cs => if p = c then stripLit ps cs else none

/-- Parse a JSON number lexeme (grammar of RFC 8259, as enforced by
Python: no leading zeros, fraction and exponent each need at least one
digit). -/
def parseNum (l : List Char) : Option (String × List Char) :=
  let (neg, l1) := match l with
    | '-' :: rest => (['-'], rest)
    | _ => (([] : List Char), l)
  let (intPart, l2) := takeDigits l1
  if intPart = [] then none
  else if intPart.head? = some '0' ∧ intPart.length > 1 then none
  else
    let (fracPart, l3) := match l2 with
      | '.' :: rest =>
        let (d, r) := takeDigits rest
        if d = [] then (none, l2) else (some ('.' :: d), r)
      | _ => (none, l2)
    match fracPart, l2 with
    | none, '.' :: _ => none
    | _, _ =>
      let (expPart, l4) := match l3 with
        | e :: rest =>
          if e = 'e' ∨ e = 'E' then
            let (sgn, rest2) := match rest with
              | s :: r2 => if s = '+' ∨ s = '-' then ([s], r2) else (([] : List Char), rest)
              | [] => ([], rest)
            let (d, r) := takeDigits rest2
            if d = [] then (none, l3) else (some (e :: (sgn ++ d)), r)
          else (none, l3)
        | [] => (none, l3)
      match expPart, l3 with
      | none, e :: _ =>
        if e = 'e' ∨ e = 'E' then none
        else some (String.mk (neg ++ intPart ++ fracPart.getD []), l3)
      | _, _ =>
        some (String.mk (neg ++ intPart ++ fracPart.getD [] ++ expPart.getD []), l4)

mutual

/-- Parse one JSON value (leading whitespace allowed), fuel-bounded. -/
def parseVal : Nat → List Char → Option (Json × List Char)
  | 0, _ => none
  | fuel + 1, input =>
    match skipWs input with
    | [] => none
    | c :: cs =>
      if c = '"' then
        match parseJStr fuel cs with
        | some (s, rest) => some (.str s, rest)
        | none => none
      else if c = '[' then
        match skipWs cs with
        | ']' :: rest => some (.arr [], rest)
        | cs2 => parseArr fuel cs2
      else if c = lbrace then
        match skipWs cs with
        | c2 :: rest => if c2 = rbrace then some (.obj [], rest) else parseObj fuel (c2 :: rest)
        | [] => none
      else if c = 't' then
        match stripLit ['r', 'u', 'e'] cs with
        | some rest => some (.bool true, rest)
        | none => none
      else if c = 'f' then
        match stripLit ['a', 'l', 's', 'e'] cs with
        | some rest => some (.bool false, rest)
        | none => none
      else if c = 'n' then
        match stripLit ['u', 'l', 'l'] cs with
        | some rest => some (.null, rest)
        | none => none
      else if c = 'N' then
        match stripLit ['a', 'N'] cs with
        | some rest => some (.num "NaN", rest)
        | none => none
      else if c = 'I' then
        match stripLit ['n', 'f', 'i', 'n', 'i', 't', 'y'] cs with
        | some rest => some (.num "Infinity", rest)
        | none => none
      else if c = '-' ∧ cs.head? = some 'I' then
        match stripLit ['I', 'n', 'f', 'i', 'n', 'i', 't', 'y'] cs with
        | some rest => some (.num "-Infinity", rest)
        | none => none
      else
        match parseNum (c :: cs) with
        | some (lex, rest) => some (.num lex, rest)
        | none => none

/-- Parse the items of a nonempty JSON array (opening bracket consumed,
positioned at the first item). -/
def parseArr : Nat → List Char → Option (Json × List Char)
  | 0, _ => none
  | fuel + 1, input =>
    match parseVal fuel input with
    | none => none
    | some (v, rest) =>
      match skipWs rest with
      | ',' :: rest2 =>
        match parseArr fuel (skipWs rest2) with
        | some (.arr vs, rest3) => some (.arr (v :: vs), rest3)
        | _ => none
      | ']' :: rest2 => some (.arr [v], rest2)
      | _ => none

/-- Parse the fields of a nonempty JSON object (opening brace consumed,
positioned at the first key). -/
def parseObj : Nat → List Char → Option (Json × List Char)
  | 0, _ => none
  | fuel + 1, input =>
    match input with
    | [] => none
    | c :: cs =>
      if c = '"' then
        match parseJStr fuel cs with
        | none => none
        | some (k, rest) =>
          match skipWs rest with
          | ':' :: rest2 =>
            match parseVal fuel rest2 with
            | none => none
            | some (v, rest3) =>
              match skipWs rest3 with
              | ',' :: rest4 =>
                match parseObj fuel (skipWs rest4) with
                | some (.obj fs, rest5) => some (.obj ((k, v) :: fs), rest5)
                | _ => none
              | c2 :: rest4 => if c2 = rbrace then some (.obj [(k, v)], rest4) else none
              | [] => none
          | _ => none
      else none

end

/-- Model of Python's `json.loads`: parse a complete document, allowing
surrounding whitespace, rejecting trailing data. -/
def json_loads (s : String) : Option Json :=
  match parseVal (3 * s.data.length + 8) s.data with
  | some (v, rest) => if skipWs rest = [] then some v else none
  | none => none

/-! ## Tool-call arguments

`repl._parse_args` accepts either a JSON-encoded string or an
already-decoded dict; anything else, or a string that fails to decode,
raises `ValueError`.  A Python runtime value arriving as the `args` of a
tool call is modelled by `ArgsVal`; `pyother` stands for any value that
is neither a `str` nor a `dict` and carries the name of its type (used
only in the error message). -/

inductive ArgsVal where
  | pystr (s : String)
  | pydict (entries : List (String × Json))
  | pyother (typeName : String)
  deriving Repr

/-- Embedding of `repl._parse_args`: a string is decoded with
`json.loads` (`json.JSONDecodeError` becomes `ValueError`), a dict is
returned unchanged, and any other type raises `ValueError`. -/
def parse_args : ArgsVal → Except String Json
  | .pystr s =>
    match json_loads s with
    | some v => .ok v
    | none => .error ("Invalid JSON: " ++ s)
  | .pydict d => .ok (.obj d)
  | .pyother t => .error ("Invalid args type: " ++ t)

/-- First value bound to a key in a decoded mapping (Python `dict.get`). -/
def lookup (fields : List (String × Json)) (key : String) : Option Json :=
  match fields.find? (fun kv => kv.1 = key) with
  | some kv => some kv.2
  | none => none

/-! ## Transcript data model

`session.messages` holds `pydantic_ai` messages: `ModelRequest`s (user
prompts and tool returns) and `ModelResponse`s (text and tool calls).
We keep exactly the fields the core reads. -/

inductive ReqPart where
  | userPrompt (content : String)
  | toolReturn (tool_call_id tool_name content : String)
  deriving Repr, DecidableEq

inductive RespPart where
  | text (content : String)
  | toolCall (tool_call_id tool_name : String) (args : ArgsVal)
  deriving Repr

inductive Entry where
  | request (parts : List ReqPart)
  | response (parts : List RespPart)
  deriving Repr

/-- The transcript flattened to the events the answered-tool-calls
invariant talks about: user-turn parts, tool-call parts (with id and
name) and tool-return parts (with id and content). -/
inductive Ev where
  | user
  | call (tool_call_id tool_name : String)
  | ret (tool_call_id content : String)
  deriving Repr, DecidableEq

def entryEvents : Entry → List Ev
  | .request ps =>
    ps.map fun p =>
      match p with
      | .userPrompt _ => Ev.user
      | .toolReturn id _ c => Ev.ret id c
  | .response ps =>
    ps.filterMap fun p =>
      match p with
      | .text _ => none
      | .toolCall id name _ => some (Ev.call id name)

def events : List Entry → List Ev
  | [] => []
  | e :: rest => entryEvents e ++ events rest

/-! ## Session state

Embedding of `core.state.SessionState` (the fields the claims touch;
the spinner object becomes a running flag, the background task a
handle carrying its `done` bit, prompt-toolkit input sessions the list
of their keys). -/

structure TaskHandle where
  done : Bool
  deriving Repr, DecidableEq

structure SessionState where
  messages : List Entry := []
  tool_ignore : List String := []
  yolo : Bool := false
  current_model : String := "openai:gpt-4o"
  spinner : Bool := false
  input_sessions : List String := []
  current_task : Option TaskHandle := none
  deriving Repr

/-! ## Tool handler (`core/tool_handler.py`) -/

structure ToolConfirmationResponse where
  approved : Bool
  skip_future : Bool := false
  abort : Bool := false
  deriving Repr, DecidableEq

/-- Embedding of `ToolHandler.should_confirm`. -/
def should_confirm (s : SessionState) (tool_name : String) : Bool :=
  !(s.yolo || s.tool_ignore.contains tool_name)

/-- Embedding of `ToolHandler.process_confirmation`: appends to
`tool_ignore` when the response asks to skip future confirmations, and
reports whether the tool should proceed. -/
def process_confirmation (s : SessionState) (response : ToolConfirmationResponse)
    (tool_name : String) : SessionState × Bool :=
  let s1 :=
    if response.skip_future then { s with tool_ignore := s.tool_ignore ++ [tool_name] } else s
  (s1, response.approved && !response.abort)

/-- Embedding of `ToolHandler.create_confirmation_request`. -/
structure ToolConfirmationRequest where
  tool_name : String
  args : List (String × Json)
  filepath : Option Json := none

def create_confirmation_request (tool_name : String) (args : List (String × Json)) :
    ToolConfirmationRequest :=
  { tool_name := tool_name, args := args, filepath := lookup args "filepath" }

/-! ## Output sink

Everything the core writes to the terminal is recorded as a `Ui`
event.  Rich-text rendering (diff colouring, markdown, key-casing) is
display-only formatting outside the core (spec section 1 scopes it
out), so an event carries the structured data handed to the renderer
rather than the final escape-coded text. -/

/-- What `_render_args` hands the renderer: a diff view for
`update_file` (the `target` and `patch` arguments), a code block for
`write_file` (the `filepath` and `content` arguments), and the generic
key/value listing otherwise. -/
inductive RenderedArgs where
  | fileDiff (target patch : Option Json)
  | codeBlock (filepath content : Option Json)
  | keyValues (args : List (String × Json))
  deriving Repr

/-- Embedding of `repl._render_args` / `ToolUI._render_args`. -/
def render_args (tool_name : String) (args : List (String × Json)) : RenderedArgs :=
  if tool_name = "update_file" then .fileDiff (lookup args "target") (lookup args "patch")
  else if tool_name = "write_file" then .codeBlock (lookup args "filepath") (lookup args "content")
  else .keyValues args

inductive Ui where
  | info (s : String)
  | muted (s : String)
  | success (s : String)
  | error (s : String)
  | agent (s : String)
  | usageFile (filepath : Json)
  | printLine (s : String)
  | line
  | panel (title : String) (content : RenderedArgs) (filepath : Option Json)
  | promptInput (pretext : String)
  | mcpArg (key : String) (value : Json)
  | spinnerOn
  | spinnerOff
  | invalidate
  deriving Repr

/-- The fixed set of built-in tools (`config.INTERNAL_TOOLS`,
`ApplicationSettings.internal_tools`). -/
def INTERNAL_TOOLS : List String := ["read_file", "run_command", "update_file", "write_file"]

/-- Embedding of `repl._get_tool_title`. -/
def get_tool_title (tool_name : String) : String :=
  if INTERNAL_TOOLS.contains tool_name then "Tool(" ++ tool_name ++ ")"
  else "MCP(" ++ tool_name ++ ")"

/-- Embedding of `repl._log_mcp`: what awaiting the coroutine would
emit — nothing for empty arguments, otherwise the title and one muted
line per argument. -/
def log_mcp (title : String) (args : List (String × Json)) : List Ui :=
  if args.isEmpty then []
  else Ui.info title :: args.map fun kv => Ui.mcpArg kv.1 kv.2

/-- Fields of a decoded argument value when it is used as a dict
(`args.get(...)`, `args.items()`).  Tool-call arguments always decode
to objects; for any other value the Python attribute access would
fail, and no claim exercises that corner. -/
def asFields : Json → List (String × Json)
  | .obj fs => fs
  | _ => []

/-- How `repl._tool_confirm` finished: returned normally, raised
`SidekickAbort`, or raised `ValueError` from `_parse_args`. -/
inductive ConfirmResult where
  | ok
  | abort
  | valError (msg : String)
  deriving Repr, DecidableEq

/-- Embedding of `repl._tool_confirm` (the confirmation path of the
tool callback).  `userInput` is the line read by `ui.input` when the
prompt is shown; `await ui.input(...) or "1"` turns an empty line into
`"1"`. -/
def tool_confirm (tool_name : String) (rawArgs : ArgsVal) (userInput : String)
    (s : SessionState) : SessionState × List Ui × ConfirmResult :=
  let title := get_tool_title tool_name
  match parse_args rawArgs with
  | .error m => (s, [], .valError m)
  | .ok parsed =>
    let args := asFields parsed
    if s.yolo || s.tool_ignore.contains tool_name then
      -- The source reads `if tool_call.tool_name not in config.INTERNAL_TOOLS:
      -- _log_mcp(title, args)` — but `_log_mcp` is an async function called
      -- without `await`, so the coroutine is discarded and nothing is emitted.
      (s, [], .ok)
    else
      let s1 := { s with spinner := false }
      let content := render_args tool_name args
      let filepath := lookup args "filepath"
      let header := [Ui.panel title content filepath] ++
        (match filepath with
         | some fp => [Ui.usageFile fp]
         | none => []) ++
        [Ui.printLine "  1. Yes (default)",
         Ui.printLine "  2. Yes, and don't ask again for commands like this",
         Ui.printLine "  3. No, and tell Sidekick what to do differently",
         Ui.promptInput "  Choose an option [1/2/3]: "]
      let resp := if userInput = "" then "1" else userInput
      if resp = "2" then
        ({ s1 with tool_ignore := s1.tool_ignore ++ [tool_name], spinner := true },
         header ++ [Ui.line], .ok)
      else if resp = "3" then
        (s1, header, .abort)
      else
        ({ s1 with spinner := true }, header ++ [Ui.line], .ok)

/-- Embedding of `ToolUI.show_confirmation` (and its synchronous
variant, which differs only in stripping whitespace from the input):
renders the panel and the three options, reads one line, and maps it
to a `ToolConfirmationResponse`. -/
def show_confirmation (request : ToolConfirmationRequest) (userInput : String) :
    List Ui × ToolConfirmationResponse :=
  let title := get_tool_title request.tool_name
  let content := render_args request.tool_name request.args
  let trace := [Ui.panel title content request.filepath] ++
    (match request.filepath with
     | some fp => [Ui.usageFile fp]
     | none => []) ++
    [Ui.printLine "  1. Yes (default)",
     Ui.printLine "  2. Yes, and don't ask again for commands like this",
     Ui.printLine "  3. No, and tell Sidekick what to do differently",
     Ui.promptInput "  Choose an option [1/2/3]: "]
  let resp := if userInput = "" then "1" else userInput
  let decision : ToolConfirmationResponse :=
    if resp = "2" then { approved := true, skip_future := true }
    else if resp = "3" then { approved := false, abort := true }
    else { approved := true }
  (trace, decision)

/-! ## Answered-tool-calls bookkeeping -/

def isRetFor (id : String) : Ev → Bool
  | .ret i _ => i == id
  | _ => false

/-- Number of tool-return events carrying this `tool_call_id`. -/
def cntRet (l : List Ev) (id : String) : Nat := l.countP (isRetFor id)

def callPair : Ev → Option (String × String)
  | .call id name => some (id, name)
  | _ => none

/-- The tool calls of the flattened transcript, in order, as
(`tool_call_id`, `tool_name`) pairs. -/
def toolCalls (l : List Ev) : List (String × String) := l.filterMap callPair

/-- Tool calls with no matching tool-return anywhere in the
transcript. -/
def unansweredCalls (l : List Ev) : List (String × String) :=
  (toolCalls l).filter fun c => cntRet l c.1 == 0

def unansweredIds (l : List Ev) : List String := (unansweredCalls l).map Prod.fst

/-- Every `tool_call_id` occurring in the transcript, in a call or a
return. -/
def usedIds (l : List Ev) : List String :=
  l.filterMap fun e =>
    match e with
    | .user => none
    | .call id _ => some id
    | .ret id _ => some id

/-- Modelled from the spec: `patch_tool_messages` — imported by
`repl.py` from `sidekick.agents.main`, whose module-level definition is
not in the source tree (only `MainAgent._patch_tool_message`, which
builds one such synthetic entry, is).  Per the spec's transcript
invariant, it appends, for every tool call in the history with no
matching tool return, one synthetic `ToolReturn` with the same
`tool_call_id` and `tool_name` and the given content. -/
def patch_tool_messages (content : String) (msgs : List Entry) : List Entry :=
  msgs ++ (unansweredCalls (events msgs)).map fun c =>
    Entry.request [ReqPart.toolReturn c.1 c.2 content]

/-! ## The streamed agent run -/

/-- One unit yielded by the streamed agent run (`agent.iter`): a node
carrying a `request` attribute, a node carrying a `model_response`
attribute, or the point where the stream raises
`UnexpectedModelBehavior`. -/
inductive Node where
  | request (parts : List ReqPart)
  | response (parts : List RespPart)
  | failure (msg : String)

inductive TurnEnd where
  | completed
  | aborted
  | modelError (msg : String)
  deriving Repr, DecidableEq

def partDenied (deny : String → Bool) : RespPart → Bool
  | .toolCall id _ _ => deny id
  | .text _ => false

/-- Modelled from the spec: the node-iteration driver
(`sidekick.agents.main.process_request`, imported by `repl.py` but
absent from the source tree; `MainAgent.process_request` in
`agents/main.py` shows the same loop).  Request nodes append their
`ModelRequest` to the history; response nodes append their
`ModelResponse` and then run the tool callback on each tool-call part
in arrival order.  A denied call makes `_tool_handler` patch all
unanswered tool calls with "Operation aborted by user." and unwind with
`SidekickAbort`; `UnexpectedModelBehavior` ends the stream where it is
raised.  `deny` tells, per `tool_call_id`, whether the user answers the
confirmation prompt with option 3. -/
def runNodes (deny : String → Bool) : List Node → List Entry → List Entry × TurnEnd
  | [], msgs => (msgs, .completed)
  | .failure m :: _, msgs => (msgs, .modelError m)
  | .request ps :: rest, msgs => runNodes deny rest (msgs ++ [.request ps])
  | .response ps :: rest, msgs =>
    let msgs1 := msgs ++ [.response ps]
    if ps.any (partDenied deny) then
      (patch_tool_messages "Operation aborted by user." msgs1, .aborted)
    else
      runNodes deny rest msgs1

/-! ## The request lifecycle (`repl.process_request`) -/

/-- Terminal outcome of the awaited agent call inside
`repl.process_request`. -/
inductive TurnOutcome where
  | ok (resultOutput : String)
  | cancelled
  | aborted
  | modelError (msg : String)
  | exn (msg : String)

/-- What one agent call does to the session: the turn mutates
`session.messages` (streamed entries and abort patches) and
`session.tool_ignore` (approve-and-remember inside the tool callback),
and finishes with a classified outcome. -/
structure AgentRunResult where
  messages : List Entry
  tool_ignore : List String
  outcome : TurnOutcome

def AgentRunFn : Type := String → List Entry → List String → AgentRunResult

/-- Embedding of `repl.process_request`: starts the spinner, awaits the
agent call, classifies the outcome (`CancelledError`, `SidekickAbort`,
`UnexpectedModelBehavior` — which additionally patches unanswered tool
calls — and the catch-all `Exception`), and in the `finally` block
stops the spinner, clears `current_task`, and invalidates the multiline
prompt when its input session exists.  The `Except` return records
whether an exception escapes to the caller; no branch produces one. -/
def process_request (run : AgentRunFn) (text : String) (outputFlag : Bool)
    (s : SessionState) : Except String (SessionState × List Ui) :=
  let s0 := { s with spinner := true }
  let r := run text s0.messages s0.tool_ignore
  let s1 := { s0 with messages := r.messages, tool_ignore := r.tool_ignore }
  let (s2, tr) :=
    match r.outcome with
    | .ok res => (s1, if outputFlag then [Ui.agent res] else [])
    | .cancelled => (s1, [Ui.muted "Request cancelled"])
    | .aborted => (s1, [Ui.muted "Operation aborted."])
    | .modelError m =>
      ({ s1 with messages := patch_tool_messages m s1.messages }, [Ui.muted m])
    | .exn m => (s1, [Ui.error m])
  let s3 := { s2 with spinner := false, current_task := none }
  let tail := if s3.input_sessions.contains "multiline" then [Ui.invalidate] else []
  .ok (s3, Ui.spinnerOn :: tr ++ [Ui.spinnerOff] ++ tail)

/-- The agent call of one turn, instantiated with the node-iteration
driver (`repl.process_request` awaits `agent.process_request`, which
iterates the streamed nodes and produces the final answer). -/
def agentRun (deny : String → Bool) (nodes : List Node) (finalAnswer : String) : AgentRunFn :=
  fun _text msgs ti =>
    match runNodes deny nodes msgs with
    | (m, .completed) => { messages := m, tool_ignore := ti, outcome := .ok finalAnswer }
    | (m, .aborted) => { messages := m, tool_ignore := ti, outcome := .aborted }
    | (m, .modelError msg) => { messages := m, tool_ignore := ti, outcome := .modelError msg }

/-! ## The supervisor loop (`repl.repl`) -/

inductive LoopAction where
  | stop
  | next
  | started
  deriving Repr, DecidableEq

/-- Python `str.lower()` (per-character lowercasing). -/
def pyLower (s : String) : String := String.mk (s.data.map Char.toLower)

/-- Python `line.startswith("/")`. -/
def startsWithSlash (line : String) : Bool := line.data.head? = some '/'

/-- Embedding of the body of the `while True` loop in `repl.repl` for
one line of input: blank lines re-prompt, `exit`/`quit` leave the loop,
slash commands are dispatched (`runCommand` stands for the command
registry; returning `"restart"` breaks out), and any other text starts
a new background task — unless one is outstanding, in which case the
busy notice is the only effect. -/
def handle_line (runCommand : String → SessionState → SessionState × List Ui × Option String)
    (line : String) (s : SessionState) : SessionState × List Ui × LoopAction :=
  let launch : SessionState × List Ui × LoopAction :=
    ({ s with current_task := some { done := false } }, [], .started)
  if line = "" then (s, [], .next)
  else if pyLower line = "exit" ∨ pyLower line = "quit" then (s, [], .stop)
  else if startsWithSlash line then
    let (s1, tr, action) := runCommand line s
    if action = some "restart" then (s1, tr, .stop) else (s1, tr, .next)
  else
    match s.current_task with
    | some t => if !t.done then (s, [Ui.muted "Agent is busy, press esc to interrupt."], .next) else launch
    | none => launch

/-! ## Compaction (`cli/commands.py`, `CompactCommand.execute`) -/

/-- Python `messages[-2:]`. -/
def takeLast2 {α : Type} (l : List α) : List α := l.drop (l.length - 2)

/-- Embedding of `CompactCommand.execute`: run a summarization request
through `process_request` with output suppressed, print a success
notice, then keep only the last two history entries. -/
def compact_execute (run : AgentRunFn) (s : SessionState) :
    Except String (SessionState × List Ui) :=
  match process_request run "Summarize the conversation so far" false s with
  | .ok (s1, tr) =>
    .ok ({ s1 with messages := takeLast2 s1.messages },
      tr ++ [Ui.success "Context history has been summarized and truncated."])
  | .error e => .error e

/-! ## History handed to the agent (`MainAgent._inject_guide`) -/

/-- The history object `_inject_guide` hands to `agent.iter`: with a
guide file present, `session.messages + [guide]` builds a fresh Python
list; without one, the `session.messages` list object itself is
returned, so the callee holds an alias of the live transcript. -/
inductive HandedHistory where
  | fresh (entries : List Entry)
  | aliased

def inject_guide (guideContent : Option String) (messages : List Entry) : HandedHistory :=
  match guideContent with
  | some content => .fresh (messages ++ [Entry.request [ReqPart.userPrompt content]])
  | none => .aliased

/-- Contents of a handed history object at a moment when the transcript
holds `current`: a fresh list is unaffected by appends to the
transcript, an alias tracks it. -/
def viewHistory : HandedHistory → List Entry → List Entry
  | .fresh l, _ => l
  | .aliased, current => current

/-! ## Stream well-formedness and the transcript invariant -/

def retIdsOfParts (ps : List ReqPart) : List String :=
  ps.filterMap fun p =>
    match p with
    | .toolReturn id _ _ => some id
    | _ => none

def hasUserPrompt (ps : List ReqPart) : Bool :=
  ps.any fun p =>
    match p with
    | .userPrompt _ => true
    | _ => false

def callIdsOfParts (ps : List RespPart) : List String :=
  ps.filterMap fun p =>
    match p with
    | .toolCall id _ _ => some id
    | _ => none

def streamCallIds : List Node → List String
  | [] => []
  | .response ps :: rest => callIdsOfParts ps ++ streamCallIds rest
  | _ :: rest => streamCallIds rest

def nodupB : List String → Bool
  | [] => true
  | x :: xs => !xs.contains x && nodupB xs

/-- The Agent Binding's streaming contract (spec section 4.3): tool
returns in request nodes answer pending tool calls, each at most once;
a user prompt appears in a request node only while no call is pending;
the stream ends normally only with every call answered; it may instead
raise at any point, which ends it there. -/
def wfNodes : List Node → List String → Bool
  | [], pending => pending.isEmpty
  | .failure _ :: _, _ => true
  | .request ps :: rest, pending =>
    (!hasUserPrompt ps || pending.isEmpty)
      && (retIdsOfParts ps).all pending.contains
      && nodupB (retIdsOfParts ps)
      && wfNodes rest (pending.filter fun id => !(retIdsOfParts ps).contains id)
  | .response ps :: rest, pending => wfNodes rest (pending ++ callIdsOfParts ps)

/-- The fresh-identifier side of the contract: the stream's tool-call
ids are pairwise distinct and unused in the transcript so far. -/
def freshStream (nodes : List Node) (l : List Ev) : Bool :=
  nodupB (streamCallIds nodes) &&
    (streamCallIds nodes).all fun id => !(usedIds l).contains id

/-- No user-turn event in the given span. -/
def NoUser (l : List Ev) : Prop := ∀ e ∈ l, e ≠ Ev.user

/-- The transcript invariant, read off the flattened transcript: every
tool-call part has exactly one matching tool-return in the whole
transcript, and that return appears after the call with no user turn
strictly between the two. -/
def Answered (l : List Ev) : Prop :=
  ∀ pre id name post, l = pre ++ Ev.call id name :: post →
    cntRet l id = 1 ∧ ∃ mid c rest, post = mid ++ Ev.ret id c :: rest ∧ NoUser mid

/-- Mid-turn invariant: every tool call is either already answered
exactly once (with the return before any later user turn) or still
pending — no return at all and no user turn after the call. -/
def InvEv (l : List Ev) : Prop :=
  ∀ pre id name post, l = pre ++ Ev.call id name :: post →
    (cntRet l id = 0 ∧ NoUser post) ∨
    (cntRet l id = 1 ∧ ∃ mid c rest, post = mid ++ Ev.ret id c :: rest ∧ NoUser mid)

/-! # Theorems -/

/-- C7: `should_confirm` returns `false` exactly when the session's
yolo flag is set or the tool name is in the tool-ignore collection; in
particular, with yolo set it returns `false` for every tool name,
whatever the ignore collection holds. -/
theorem should_confirm_false_iff (s : SessionState) (t : String) :
    (should_confirm s t = false ↔ (s.yolo = true ∨ t ∈ s.tool_ignore)) ∧
    (s.yolo = true → should_confirm s t = false) := by
  constructor
  · cases hy : s.yolo <;> simp [should_confirm, hy]
  · intro h
    simp [should_confirm, h]

/-- Witness for C7 at a concrete session: yolo set, empty ignore
collection, an arbitrary tool name. -/
theorem should_confirm_false_iff_witness :
    should_confirm { yolo := true, tool_ignore := ["read_file"] } "some_mcp_tool" = false :=
  (should_confirm_false_iff { yolo := true, tool_ignore := ["read_file"] } "some_mcp_tool").2 rfl

/-- C2 counterexample: starting from an empty session, processing an
approve-and-remember decision for `run_command` twice leaves the
tool-ignore collection containing the name twice, not exactly once —
`ToolHandler.process_confirmation` appends without a membership
check. -/
theorem process_confirmation_twice_counterexample :
    ¬ ((process_confirmation
          (process_confirmation {} { approved := true, skip_future := true } "run_command").1
          { approved := true, skip_future := true } "run_command").1.tool_ignore.count
        "run_command" = 1) := by
  decide

/-- C2 amended: processing an approve-and-remember decision twice for
the same tool name appends it twice (its count rises by two); the name
is a member afterwards, so its confirmation stays skipped. -/
theorem process_confirmation_twice_amended (s : SessionState) (t : String)
    (resp : ToolConfirmationResponse) (h : resp.skip_future = true) :
    ((process_confirmation (process_confirmation s resp t).1 resp t).1.tool_ignore.count t
        = s.tool_ignore.count t + 2) ∧
    t ∈ (process_confirmation (process_confirmation s resp t).1 resp t).1.tool_ignore ∧
    should_confirm (process_confirmation (process_confirmation s resp t).1 resp t).1 t
        = false := by
  simp only [process_confirmation, h, if_pos]
  refine ⟨?_, ?_, ?_⟩
  · simp [List.count_append, List.count_singleton]
  · simp
  · simp [should_confirm]

/-- Witness for C2's amended claim at a concrete session. -/
theorem process_confirmation_twice_amended_witness :
    ((process_confirmation
        (process_confirmation {} { approved := true, skip_future := true } "write_file").1
        { approved := true, skip_future := true } "write_file").1.tool_ignore.count "write_file"
      = (({} : SessionState).tool_ignore.count "write_file") + 2) ∧
    "write_file" ∈ (process_confirmation
        (process_confirmation {} { approved := true, skip_future := true } "write_file").1
        { approved := true, skip_future := true } "write_file").1.tool_ignore ∧
    should_confirm (process_confirmation
        (process_confirmation {} { approved := true, skip_future := true } "write_file").1
        { approved := true, skip_future := true } "write_file").1 "write_file" = false :=
  process_confirmation_twice_amended {} "write_file"
    { approved := true, skip_future := true } rfl

/-- C5: while an unfinished task is outstanding, submitting a
non-empty plain-text line (not exit/quit, not a command) leaves the
session — messages and `current_task` included — unchanged, starts no
new task, and emits exactly one busy notice. -/
theorem busy_rejection (rc : String → SessionState → SessionState × List Ui × Option String)
    (line : String) (s : SessionState) (t : TaskHandle)
    (htask : s.current_task = some t) (hdone : t.done = false)
    (hne : line ≠ "") (hexit : pyLower line ≠ "exit") (hquit : pyLower line ≠ "quit")
    (hcmd : startsWithSlash line = false) :
    handle_line rc line s = (s, [Ui.muted "Agent is busy, press esc to interrupt."], .next) := by
  unfold handle_line
  simp [hne, hexit, hquit, hcmd, htask, hdone]

/-- Witness for C5: a concrete busy session rejecting `"hello"`. -/
theorem busy_rejection_witness :
    handle_line (fun _ s => (s, [], none)) "hello"
        { current_task := some { done := false } } =
      ({ current_task := some { done := false } },
        [Ui.muted "Agent is busy, press esc to interrupt."], .next) :=
  busy_rejection (fun _ s => (s, [], none)) "hello"
    { current_task := some { done := false } } { done := false }
    rfl rfl (by decide) (by decide) (by decide) (by decide)

/-- C8: tool-argument parsing.  A JSON-encoded string whose content is
an object decodes to that mapping; a mapping is returned unchanged; a
`ValueError` is raised exactly for a string that fails to parse as JSON
or a value that is neither a string nor a mapping (and `"not json"`
raises one). -/
theorem parse_args_spec :
    parse_args (.pystr "\x7b\"filepath\": \"a.txt\"\x7d") =
        .ok (.obj [("filepath", Json.str "a.txt")]) ∧
    (∀ d, parse_args (.pydict d) = .ok (.obj d)) ∧
    (∀ s, json_loads s = none → parse_args (.pystr s) = .error ("Invalid JSON: " ++ s)) ∧
    (∀ t, parse_args (.pyother t) = .error ("Invalid args type: " ++ t)) ∧
    (∀ v e, parse_args v = .error e →
      (∃ s, v = .pystr s ∧ json_loads s = none) ∨ ∃ t, v = .pyother t) ∧
    parse_args (.pystr "not json") = .error "Invalid JSON: not json" := by
  refine ⟨rfl, fun d => rfl, fun s h => ?_, fun t => rfl, fun v e h => ?_, rfl⟩
  · simp [parse_args, h]
  · match v with
    | .pystr s =>
      left
      refine ⟨s, rfl, ?_⟩
      by_contra hne
      match hv : json_loads s with
      | some j => simp [parse_args, hv] at h
      | none => exact hne hv
    | .pydict d => simp [parse_args] at h
    | .pyother t => exact Or.inr ⟨t, rfl⟩

/-- C9 counterexample: with no guide file present, `_inject_guide`
returns the `session.messages` list object itself rather than a copy,
so an entry appended to the transcript while the call is in flight
changes the history that was handed over: handed over an empty
transcript, the history later reads one entry where it read none at
submission time. -/
theorem snapshot_isolation_counterexample :
    viewHistory (inject_guide none []) [Entry.request [ReqPart.userPrompt "hi"]] ≠
      viewHistory (inject_guide none []) [] := by
  simp [inject_guide, viewHistory]

/-- C9 amended: when the guide file exists, the handed history is a
fresh list (`messages + [guide]`), unaffected by entries appended to
the transcript afterwards; when it is absent, the transcript list
itself is handed over, and later appends are visible through it. -/
theorem snapshot_isolation_amended (content : String) (msgs extra : List Entry) :
    (viewHistory (inject_guide (some content) msgs) (msgs ++ extra) =
      viewHistory (inject_guide (some content) msgs) msgs) ∧
    viewHistory (inject_guide none msgs) (msgs ++ extra) = msgs ++ extra := by
  simp [inject_guide, viewHistory]

/-- C10: the confirmation prompt presents exactly three numbered
options and reads exactly one line of input; an empty line defaults to
option 1 (approve once); `"2"` approves with `skip_future` set; `"3"`
denies with `abort` set; every other input approves once with
`skip_future` and `abort` unset; and `repl._tool_confirm` leaves the
tool-ignore collection unchanged for every input other than `"2"`. -/
theorem confirmation_decision_mapping (req : ToolConfirmationRequest) (input : String) :
    ((show_confirmation req input).1.countP
        (fun e => match e with | Ui.printLine _ => true | _ => false) = 3) ∧
    ((show_confirmation req input).1.countP
        (fun e => match e with | Ui.promptInput _ => true | _ => false) = 1) ∧
    ((show_confirmation req "").2 = { approved := true }) ∧
    ((show_confirmation req "2").2 = { approved := true, skip_future := true }) ∧
    ((show_confirmation req "3").2 = { approved := false, abort := true }) ∧
    (input ≠ "2" → input ≠ "3" → (show_confirmation req input).2 = { approved := true }) ∧
    (∀ tool_name rawArgs s, input ≠ "2" →
      (tool_confirm tool_name rawArgs input s).1.tool_ignore = s.tool_ignore) := by
  obtain ⟨tn, args, fp⟩ := req
  refine ⟨?_, ?_, rfl, rfl, rfl, ?_, ?_⟩
  · cases fp <;> simp [show_confirmation, List.countP_cons, List.countP_append]
  · cases fp <;> simp [show_confirmation, List.countP_cons, List.countP_append]
  · intro h2 h3
    have hin : (if input = "" then "1" else input) ≠ "2" := by
      by_cases h : input = "" <;> simp [h, h2]
    have hin3 : (if input = "" then "1" else input) ≠ "3" := by
      by_cases h : input = "" <;> simp [h, h3]
    simp only [show_confirmation, if_neg hin, if_neg hin3]
  · intro tool_name rawArgs s h2
    have hin : (if input = "" then "1" else input) ≠ "2" := by
      by_cases h : input = "" <;> simp [h, h2]
    match hp : parse_args rawArgs with
    | .error m => simp [tool_confirm, hp]
    | .ok parsed =>
      by_cases hskip : s.yolo = true ∨ tool_name ∈ s.tool_ignore
      · simp [tool_confirm, hp, hskip]
      · by_cases h3 : (if input = "" then "1" else input) = "3" <;>
          simp [tool_confirm, hp, hskip, hin, h3]

/-- C4: for every outcome of one request-lifecycle execution —
normal completion, cancellation, user abort, model-behaviour error, or
any other exception — `process_request` returns without an exception
escaping, and afterwards the spinner is stopped, `current_task` is
cleared, and (the multiline input session existing, as it does in any
live REPL) the input prompt has been asked to redraw. -/
theorem terminal_cleanup (run : AgentRunFn) (text : String) (outputFlag : Bool)
    (s : SessionState) (h : "multiline" ∈ s.input_sessions) :
    ∃ s1 tr, process_request run text outputFlag s = .ok (s1, tr) ∧
      s1.spinner = false ∧ s1.current_task = none ∧ Ui.invalidate ∈ tr := by
  have hc : s.input_sessions.contains "multiline" = true := List.elem_iff.mpr h
  simp only [process_request]
  cases outputFlag <;> cases hr : (run text s.messages s.tool_ignore).outcome <;>
    · refine ⟨_, _, rfl, rfl, rfl, ?_⟩
      simp [hc, h]

/-- Witness for C4: a cancelled turn over a concrete live session. -/
theorem terminal_cleanup_witness :
    ∃ s1 tr,
      process_request (fun _ m ti => ⟨m, ti, .cancelled⟩) "What is 2+2?" true
          { input_sessions := ["multiline"], current_task := some { done := false },
            spinner := true } = .ok (s1, tr) ∧
        s1.spinner = false ∧ s1.current_task = none ∧ Ui.invalidate ∈ tr :=
  terminal_cleanup (fun _ m ti => ⟨m, ti, .cancelled⟩) "What is 2+2?" true
    { input_sessions := ["multiline"], current_task := some { done := false },
      spinner := true } (by decide)

/-- Length of the Python tail slice `l[-2:]`. -/
theorem takeLast2_length {α : Type} (l : List α) (h : 2 ≤ l.length) :
    (takeLast2 l).length = 2 := by
  simp [takeLast2]
  omega

/-- Patching only appends entries. -/
theorem patch_append (content : String) (msgs : List Entry) :
    ∃ patchEntries, patch_tool_messages content msgs = msgs ++ patchEntries :=
  ⟨_, rfl⟩

/-- C6: `/compact` first runs the summarization request — whose turn
appends entries to the history (a summarization exchange, plus the
synthetic patch on a model error) — and then leaves exactly the last
two entries present after that summarization turn. -/
theorem compact_truncates (run : AgentRunFn) (s : SessionState) (tail : List Entry)
    (happend : (run "Summarize the conversation so far" s.messages s.tool_ignore).messages
        = s.messages ++ tail)
    (hlen : 2 ≤ s.messages.length) :
    ∃ s1 tr1 s2 tr2,
      process_request run "Summarize the conversation so far" false s = .ok (s1, tr1) ∧
      compact_execute run s = .ok (s2, tr2) ∧
      s2.messages = takeLast2 s1.messages ∧ s2.messages.length = 2 := by
  simp only [compact_execute, process_request]
  cases hr : (run "Summarize the conversation so far" s.messages s.tool_ignore).outcome <;>
    · refine ⟨_, _, _, _, rfl, rfl, rfl, takeLast2_length _ ?_⟩
      simp only [happend, patch_tool_messages, List.length_append]
      omega

/-- Witness for C6: a summarization turn that appends a
question/answer exchange to a two-entry history. -/
theorem compact_truncates_witness :
    ∃ s1 tr1 s2 tr2,
      process_request
          (fun _ m ti =>
            ⟨m ++ [Entry.request [ReqPart.userPrompt "Summarize the conversation so far"],
              Entry.response [RespPart.text "a summary"]], ti, .ok "a summary"⟩)
          "Summarize the conversation so far" false
          { messages := [Entry.request [ReqPart.userPrompt "hi"],
              Entry.response [RespPart.text "hello"]] } = .ok (s1, tr1) ∧
      compact_execute
          (fun _ m ti =>
            ⟨m ++ [Entry.request [ReqPart.userPrompt "Summarize the conversation so far"],
              Entry.response [RespPart.text "a summary"]], ti, .ok "a summary"⟩)
          { messages := [Entry.request [ReqPart.userPrompt "hi"],
              Entry.response [RespPart.text "hello"]] } = .ok (s2, tr2) ∧
      s2.messages = takeLast2 s1.messages ∧ s2.messages.length = 2 :=
  compact_truncates _ _
    [Entry.request [ReqPart.userPrompt "Summarize the conversation so far"],
      Entry.response [RespPart.text "a summary"]] rfl (by decide)

/-- C3 (code bug): on the skip path for an unconfirmed external tool,
`repl._tool_confirm` emits nothing — the source calls the async
`_log_mcp(title, args)` without `await`, discarding the coroutine —
although awaiting it would emit the title and the arguments.  At a
concrete yolo session and a non-internal tool call with one argument,
the confirmation path's trace is empty while `_log_mcp`'s output is
not. -/
theorem unconfirmed_mcp_visibility_bug :
    (tool_confirm "mcp_search" (.pydict [("query", Json.str "x")]) ""
        { yolo := true }).2.1 = [] ∧
    log_mcp (get_tool_title "mcp_search") [("query", Json.str "x")] ≠ [] ∧
    INTERNAL_TOOLS.contains "mcp_search" = false ∧
    should_confirm { yolo := true } "mcp_search" = false := by
  refine ⟨rfl, ?_, by decide, rfl⟩
  simp [log_mcp, get_tool_title, INTERNAL_TOOLS]

/-! ### List and event lemmas towards the answered-tool-calls
invariant (C1) -/

theorem events_append (a b : List Entry) : events (a ++ b) = events a ++ events b := by
  induction a with
  | nil => rfl
  | cons e rest ih => simp [events, ih]

theorem cntRet_append (a b : List Ev) (id : String) :
    cntRet (a ++ b) id = cntRet a id + cntRet b id := by
  simp [cntRet, List.countP_append]

theorem noUser_append {a b : List Ev} : NoUser (a ++ b) ↔ NoUser a ∧ NoUser b := by
  constructor
  · intro h
    exact ⟨fun e he => h e (List.mem_append_left _ he),
      fun e he => h e (List.mem_append_right _ he)⟩
  · rintro ⟨ha, hb⟩ e he
    rcases List.mem_append.mp he with h | h
    · exact ha e h
    · exact hb e h

theorem toolCalls_append (a b : List Ev) :
    toolCalls (a ++ b) = toolCalls a ++ toolCalls b := by
  simp [toolCalls]

theorem usedIds_append (a b : List Ev) : usedIds (a ++ b) = usedIds a ++ usedIds b := by
  simp [usedIds]

/-- Response entries flatten to call events only: no returns. -/
theorem cntRet_response (ps : List RespPart) (id : String) :
    cntRet (entryEvents (Entry.response ps)) id = 0 := by
  induction ps with
  | nil => rfl
  | cons p rest ih =>
    cases p <;> simpa [entryEvents, cntRet, isRetFor] using ih

/-- Response entries flatten to call events only: no user turns. -/
theorem noUser_response (ps : List RespPart) : NoUser (entryEvents (Entry.response ps)) := by
  intro e he
  simp only [entryEvents, List.mem_filterMap] at he
  rcases he with ⟨p, _, hp⟩
  cases p with
  | text c => simp at hp
  | toolCall id name args =>
    simp only [Option.some.injEq] at hp
    simp [← hp]

/-- Members of a flattened response entry are call events with ids
among the entry's tool-call ids. -/
theorem mem_response_events {ps : List RespPart} {e : Ev}
    (he : e ∈ entryEvents (Entry.response ps)) :
    ∃ id name, e = Ev.call id name ∧ id ∈ callIdsOfParts ps := by
  simp only [entryEvents, List.mem_filterMap] at he
  rcases he with ⟨p, hmem, hp⟩
  cases p with
  | text c => simp at hp
  | toolCall id name args =>
    simp only [Option.some.injEq] at hp
    refine ⟨id, name, hp.symm, ?_⟩
    simp only [callIdsOfParts, List.mem_filterMap]
    exact ⟨_, hmem, rfl⟩

/-- The tool-call id/name pairs of a flattened response entry project
onto the entry's tool-call ids. -/
theorem toolCalls_response_map (ps : List RespPart) :
    (toolCalls (entryEvents (Entry.response ps))).map Prod.fst = callIdsOfParts ps := by
  induction ps with
  | nil => rfl
  | cons p rest ih =>
    cases p <;> simpa [entryEvents, toolCalls, callPair, callIdsOfParts] using ih

/-- Request entries flatten to user and return events: no calls. -/
theorem toolCalls_request (ps : List ReqPart) :
    toolCalls (entryEvents (Entry.request ps)) = [] := by
  induction ps with
  | nil => rfl
  | cons p rest ih =>
    cases p <;> simpa [entryEvents, toolCalls, callPair] using ih

/-- Returns of a flattened request entry are counted by the entry's
return ids. -/
theorem cntRet_request (ps : List ReqPart) (id : String) :
    cntRet (entryEvents (Entry.request ps)) id = (retIdsOfParts ps).count id := by
  induction ps with
  | nil => rfl
  | cons p rest ih =>
    cases p with
    | userPrompt c =>
      simpa [entryEvents, cntRet, isRetFor, retIdsOfParts] using ih
    | toolReturn i n c =>
      by_cases h : i = id <;>
        simp [entryEvents, cntRet, isRetFor, retIdsOfParts, List.count_cons, h, ih,
          Nat.add_comm] at ih ⊢ <;> omega

/-- Without a user-prompt part, a request entry flattens to return
events only. -/
theorem noUser_request {ps : List ReqPart} (h : hasUserPrompt ps = false) :
    NoUser (entryEvents (Entry.request ps)) := by
  intro e he
  simp only [entryEvents, List.mem_map] at he
  rcases he with ⟨p, hmem, hp⟩
  cases p with
  | userPrompt c =>
    exfalso
    have htrue : hasUserPrompt ps = true := by
      simp only [hasUserPrompt, List.any_eq_true]
      exact ⟨_, hmem, rfl⟩
    rw [htrue] at h
    exact Bool.noConfusion h
  | toolReturn i n c =>
    simp [← hp]

/-- Members of a flattened request entry are user or return events. -/
theorem mem_request_events {ps : List ReqPart} {e : Ev}
    (he : e ∈ entryEvents (Entry.request ps)) :
    e = Ev.user ∨ ∃ i c, e = Ev.ret i c := by
  simp only [entryEvents, List.mem_map] at he
  rcases he with ⟨p, _, hp⟩
  cases p with
  | userPrompt c => exact Or.inl hp.symm
  | toolReturn i n c => exact Or.inr ⟨i, c, hp.symm⟩

theorem usedIds_request (ps : List ReqPart) :
    usedIds (entryEvents (Entry.request ps)) = retIdsOfParts ps := by
  induction ps with
  | nil => rfl
  | cons p rest ih =>
    cases p <;> simpa [entryEvents, usedIds, retIdsOfParts] using ih

theorem usedIds_response (ps : List RespPart) :
    usedIds (entryEvents (Entry.response ps)) = callIdsOfParts ps := by
  induction ps with
  | nil => rfl
  | cons p rest ih =>
    cases p <;> simpa [entryEvents, usedIds, callIdsOfParts] using ih

/-- Splitting an append at a distinguished element: the element lies in
the left or the right part. -/
theorem append_split_at {α : Type} {l evs pre post : List α} {e : α}
    (h : l ++ evs = pre ++ e :: post) :
    (∃ post1, l = pre ++ e :: post1 ∧ post = post1 ++ evs) ∨
    (∃ pre2, evs = pre2 ++ e :: post ∧ pre = l ++ pre2) := by
  rcases List.append_eq_append_iff.mp h with ⟨a, ha1, ha2⟩ | ⟨c, hc1, hc2⟩
  · exact Or.inr ⟨a, ha2, ha1⟩
  · cases c with
    | nil =>
      refine Or.inr ⟨[], ?_, ?_⟩
      · simpa using hc2.symm
      · simpa using hc1.symm
    | cons x xs =>
      rw [List.cons_append] at hc2
      have hx : e = x := (List.cons.injEq _ _ _ _ ▸ hc2).1
      have hpost : post = xs ++ evs := (List.cons.injEq _ _ _ _ ▸ hc2).2
      exact Or.inl ⟨xs, by rw [hc1, hx], hpost⟩

theorem nodupB_iff {l : List String} : nodupB l = true ↔ l.Nodup := by
  induction l with
  | nil => simp [nodupB]
  | cons y ys ih =>
    simp [nodupB, ih, List.nodup_cons]

theorem mapFst_filter (p : String → Bool) (L : List (String × String)) :
    (L.filter fun c => p c.1).map Prod.fst = (L.map Prod.fst).filter p := by
  induction L with
  | nil => rfl
  | cons c rest ih => by_cases h : p c.1 <;> simp [List.filter_cons, h, ih]

theorem cntRet_retMap (L : List (String × String)) (content id : String) :
    cntRet (L.map fun c => Ev.ret c.1 content) id = (L.map Prod.fst).count id := by
  induction L with
  | nil => rfl
  | cons c rest ih =>
    by_cases h : c.1 = id <;>
      simp [cntRet, isRetFor, List.count_cons, h, ih, List.countP_cons] at ih ⊢ <;>
      omega

theorem noUser_retMap (L : List (String × String)) (content : String) :
    NoUser (L.map fun c => Ev.ret c.1 content) := by
  intro e he
  rcases List.mem_map.mp he with ⟨c, _, hc⟩
  simp [← hc]

theorem toolCalls_retMap (L : List (String × String)) (content : String) :
    toolCalls (L.map fun c => Ev.ret c.1 content) = [] := by
  induction L with
  | nil => rfl
  | cons c rest ih => simp [toolCalls, callPair, ih]

/-- The synthetic patch entries flatten to one return event each. -/
theorem events_retEntries (L : List (String × String)) (content : String) :
    events (L.map fun c => Entry.request [ReqPart.toolReturn c.1 c.2 content]) =
      L.map fun c => Ev.ret c.1 content := by
  induction L with
  | nil => rfl
  | cons c rest ih => simp [events, entryEvents, ih]

/-- A call with no return anywhere is recorded as unanswered. -/
theorem mem_unansweredIds {l : List Ev} (id name : String)
    (hmem : Ev.call id name ∈ l) (h0 : cntRet l id = 0) : id ∈ unansweredIds l := by
  have hc : (id, name) ∈ toolCalls l := by
    simp only [toolCalls, List.mem_filterMap]
    exact ⟨_, hmem, rfl⟩
  simp only [unansweredIds, unansweredCalls, List.mem_map]
  refine ⟨(id, name), ?_, rfl⟩
  simp only [List.mem_filter]
  exact ⟨hc, by simp [h0]⟩

theorem unansweredIds_subset_used {l : List Ev} {id : String}
    (h : id ∈ unansweredIds l) : id ∈ usedIds l := by
  simp only [unansweredIds, unansweredCalls, List.mem_map] at h
  rcases h with ⟨c, hc, rfl⟩
  have hmem := (List.mem_filter.mp hc).1
  simp only [toolCalls, List.mem_filterMap] at hmem
  rcases hmem with ⟨e, he, hpair⟩
  cases e with
  | user => simp [callPair] at hpair
  | ret i ct => simp [callPair] at hpair
  | call i n =>
    simp only [callPair, Option.some.injEq] at hpair
    simp only [usedIds, List.mem_filterMap]
    exact ⟨_, he, by rw [← hpair]⟩

theorem cntRet_eq_zero_of_not_used {l : List Ev} {id : String} (h : id ∉ usedIds l) :
    cntRet l id = 0 := by
  rw [cntRet, List.countP_eq_zero]
  intro a ha hp
  cases a with
  | user => simp [isRetFor] at hp
  | call i n => simp [isRetFor] at hp
  | ret i c =>
    have hi : i = id := by simpa [isRetFor] using hp
    subst hi
    refine h ?_
    simp only [usedIds, List.mem_filterMap]
    exact ⟨_, ha, rfl⟩

/-- A positive return count yields an explicit split at a matching
return event. -/
theorem exists_ret_split {l : List Ev} {id : String} (h : cntRet l id ≠ 0) :
    ∃ c pre2 post2, l = pre2 ++ Ev.ret id c :: post2 := by
  have hpos : 0 < l.countP (isRetFor id) := Nat.pos_of_ne_zero h
  obtain ⟨a, ha, hp⟩ := List.countP_pos_iff.mp hpos
  cases a with
  | user => simp [isRetFor] at hp
  | call i n => simp [isRetFor] at hp
  | ret i c =>
    have hi : i = id := by simpa [isRetFor] using hp
    subst hi
    obtain ⟨s, t, hst⟩ := List.append_of_mem ha
    exact ⟨c, s, t, hst⟩

/-- Appending a request entry removes its answered ids from the
unanswered set. -/
theorem unansweredIds_after_request (l : List Ev) (ps : List ReqPart) :
    unansweredIds (l ++ entryEvents (Entry.request ps)) =
      (unansweredIds l).filter fun id => !(retIdsOfParts ps).contains id := by
  unfold unansweredIds unansweredCalls
  rw [toolCalls_append, toolCalls_request, List.append_nil]
  have hcond : ∀ c ∈ toolCalls l,
      (cntRet (l ++ entryEvents (Entry.request ps)) c.1 == 0) =
        ((!(retIdsOfParts ps).contains c.1) && (cntRet l c.1 == 0)) := by
    intro c _
    rw [cntRet_append, cntRet_request, Bool.eq_iff_iff]
    simp only [beq_iff_eq, Nat.add_eq_zero, Bool.and_eq_true, Bool.not_eq_true']
    constructor
    · rintro ⟨h1, h2⟩
      have hnm : c.1 ∉ retIdsOfParts ps := List.count_eq_zero.mp h2
      exact ⟨by simp [hnm], h1⟩
    · rintro ⟨h1, h2⟩
      refine ⟨h2, List.count_eq_zero.mpr ?_⟩
      intro hm
      have hc2 : (retIdsOfParts ps).contains c.1 = true := by simp [hm]
      rw [hc2] at h1
      exact Bool.noConfusion h1
  rw [List.filter_congr hcond, ← List.filter_filter]
  exact mapFst_filter (fun id => !(retIdsOfParts ps).contains id) _

/-- Appending a response entry whose call ids are fresh appends those
ids to the unanswered set. -/
theorem unansweredIds_after_response (l : List Ev) (ps : List RespPart)
    (hfresh : ∀ id ∈ callIdsOfParts ps, cntRet l id = 0) :
    unansweredIds (l ++ entryEvents (Entry.response ps)) =
      unansweredIds l ++ callIdsOfParts ps := by
  unfold unansweredIds unansweredCalls
  rw [toolCalls_append, List.filter_append, List.map_append]
  have h1 : ∀ c ∈ toolCalls l,
      (cntRet (l ++ entryEvents (Entry.response ps)) c.1 == 0) = (cntRet l c.1 == 0) := by
    intro c _
    rw [cntRet_append, cntRet_response, Nat.add_zero]
  have h2 : ∀ c ∈ toolCalls (entryEvents (Entry.response ps)),
      (cntRet (l ++ entryEvents (Entry.response ps)) c.1 == 0) = true := by
    intro c hc
    have hid : c.1 ∈ callIdsOfParts ps := by
      rw [← toolCalls_response_map ps]
      exact List.mem_map.mpr ⟨c, hc, rfl⟩
    rw [cntRet_append, cntRet_response, hfresh c.1 hid]
    rfl
  rw [List.filter_congr h1, List.filter_eq_self.mpr h2, toolCalls_response_map]

theorem events_singleton (e : Entry) : events [e] = entryEvents e := by
  simp [events]

theorem not_mem_of_contains_eq_false {l : List String} {x : String}
    (h : l.contains x = false) : x ∉ l := by
  intro hm
  simp [hm] at h

/-- An id recorded as unanswered indeed has no return. -/
theorem cntRet_of_mem_unanswered (l : List Ev) (id : String)
    (h : id ∈ unansweredIds l) : cntRet l id = 0 := by
  simp only [unansweredIds, unansweredCalls, List.mem_map] at h
  rcases h with ⟨c, hc, rfl⟩
  have := (List.mem_filter.mp hc).2
  simpa using this

theorem invEv_of_answered {l : List Ev} (h : Answered l) : InvEv l :=
  fun pre id name post heq => Or.inr (h pre id name post heq)

theorem unanswered_nil_of_answered {l : List Ev} (h : Answered l) :
    unansweredIds l = [] := by
  rw [unansweredIds, unansweredCalls]
  have hfil : (toolCalls l).filter (fun c => cntRet l c.1 == 0) = [] := by
    rw [List.filter_eq_nil_iff]
    intro c hc
    simp only [toolCalls, List.mem_filterMap] at hc
    rcases hc with ⟨e, he, hp⟩
    cases e with
    | user => simp [callPair] at hp
    | ret i ct => simp [callPair] at hp
    | call i n =>
      simp only [callPair, Option.some.injEq] at hp
      obtain ⟨s, t, hst⟩ := List.append_of_mem he
      have hone := (h s i n t hst).1
      rw [← hp]
      simp [hone]
  rw [hfil]
  rfl

theorem answered_of_no_unanswered {l : List Ev} (hinv : InvEv l)
    (hun : unansweredIds l = []) : Answered l := by
  intro pre id name post heq
  rcases hinv pre id name post heq with ⟨h0, _⟩ | h
  · exfalso
    have hmem : id ∈ unansweredIds l :=
      mem_unansweredIds id name (by rw [heq]; simp) h0
    rw [hun] at hmem
    simp at hmem
  · exact h

/-- Appending a response entry with fresh call ids preserves the
mid-turn invariant. -/
theorem invEv_step_response {l : List Ev} (ps : List RespPart)
    (hinv : InvEv l)
    (hfresh : ∀ id ∈ callIdsOfParts ps, cntRet l id = 0) :
    InvEv (l ++ entryEvents (Entry.response ps)) := by
  intro pre id name post heq
  rcases append_split_at heq with ⟨post1, hl, hpost⟩ | ⟨pre2, hresp, hpre⟩
  · rcases hinv pre id name post1 hl with ⟨h0, hnu⟩ | ⟨h1, mid, c, rest, hsplit, hnu⟩
    · left
      constructor
      · rw [cntRet_append, cntRet_response, h0]
      · rw [hpost]
        exact noUser_append.mpr ⟨hnu, noUser_response ps⟩
    · right
      refine ⟨?_, mid, c, rest ++ entryEvents (Entry.response ps), ?_, hnu⟩
      · rw [cntRet_append, cntRet_response, h1]
      · rw [hpost, hsplit]
        simp [List.append_assoc]
  · left
    have hmem : Ev.call id name ∈ entryEvents (Entry.response ps) := by
      rw [hresp]
      simp
    rcases mem_response_events hmem with ⟨id2, name2, heq2, hid2⟩
    have hideq : id = id2 := by
      injection heq2 with h1 h2
    subst hideq
    constructor
    · rw [cntRet_append, cntRet_response, hfresh id hid2]
    · intro e he
      refine noUser_response ps e ?_
      rw [hresp]
      exact List.mem_append_right _ (List.mem_cons_of_mem _ he)

/-- Appending a request entry that answers pending calls (each at most
once, with a user prompt only when nothing is pending) preserves the
mid-turn invariant. -/
theorem invEv_step_request {l : List Ev} (ps : List ReqPart)
    (hinv : InvEv l)
    (hR0 : ∀ id ∈ retIdsOfParts ps, cntRet l id = 0)
    (hRn : nodupB (retIdsOfParts ps) = true)
    (huser : hasUserPrompt ps = true → unansweredIds l = []) :
    InvEv (l ++ entryEvents (Entry.request ps)) := by
  intro pre id name post heq
  rcases append_split_at heq with ⟨post1, hl, hpost⟩ | ⟨pre2, hreq, hpre⟩
  · rcases hinv pre id name post1 hl with ⟨h0, hnu⟩ | ⟨h1, mid, c, rest, hsplit, hnu⟩
    · have hpend : id ∈ unansweredIds l :=
        mem_unansweredIds id name (by rw [hl]; simp) h0
      have hnureq : NoUser (entryEvents (Entry.request ps)) := by
        cases hu : hasUserPrompt ps with
        | false => exact noUser_request hu
        | true =>
          exfalso
          rw [huser hu] at hpend
          simp at hpend
      by_cases hidR : id ∈ retIdsOfParts ps
      · right
        have hcnt : cntRet (l ++ entryEvents (Entry.request ps)) id = 1 := by
          rw [cntRet_append, cntRet_request, h0, Nat.zero_add]
          exact List.count_eq_one_of_mem (nodupB_iff.mp hRn) hidR
        refine ⟨hcnt, ?_⟩
        have hne : cntRet (entryEvents (Entry.request ps)) id ≠ 0 := by
          rw [cntRet_request]
          exact fun hz => (List.count_eq_zero.mp hz) hidR
        obtain ⟨c2, pr2, po2, hsplit2⟩ := exists_ret_split hne
        refine ⟨post1 ++ pr2, c2, po2, ?_, ?_⟩
        · rw [hpost, hsplit2]
          simp [List.append_assoc]
        · refine noUser_append.mpr ⟨hnu, ?_⟩
          intro e he
          refine hnureq e ?_
          rw [hsplit2]
          exact List.mem_append_left _ he
      · left
        constructor
        · rw [cntRet_append, cntRet_request, h0, Nat.zero_add,
            List.count_eq_zero.mpr hidR]
        · rw [hpost]
          exact noUser_append.mpr ⟨hnu, hnureq⟩
    · right
      have hidR : id ∉ retIdsOfParts ps := by
        intro hm
        rw [hR0 id hm] at h1
        simp at h1
      constructor
      · rw [cntRet_append, cntRet_request, h1, List.count_eq_zero.mpr hidR]
      · refine ⟨mid, c, rest ++ entryEvents (Entry.request ps), ?_, hnu⟩
        rw [hpost, hsplit]
        simp [List.append_assoc]
  · exfalso
    have hmem : Ev.call id name ∈ entryEvents (Entry.request ps) := by
      rw [hreq]
      simp
    rcases mem_request_events hmem with h | ⟨i, c, h⟩ <;> simp at h

/-- Patching answers every pending call exactly once: the full
invariant holds afterwards. -/
theorem answered_patch_events (l : List Ev) (content : String)
    (hinv : InvEv l) (hnd : nodupB (unansweredIds l) = true) :
    Answered (l ++ (unansweredCalls l).map fun c => Ev.ret c.1 content) := by
  intro pre id name post heq
  rcases append_split_at heq with ⟨post1, hl2, hpost⟩ | ⟨pre2, hp, hpre⟩
  · have hmemcall : Ev.call id name ∈ l := by rw [hl2]; simp
    rcases hinv pre id name post1 hl2 with ⟨h0, hnu⟩ | ⟨h1, mid, c, rest, hsplit, hnu⟩
    · have hpend : id ∈ unansweredIds l := mem_unansweredIds id name hmemcall h0
      constructor
      · rw [cntRet_append, h0, Nat.zero_add, cntRet_retMap]
        exact List.count_eq_one_of_mem (nodupB_iff.mp hnd) hpend
      · have hne : cntRet ((unansweredCalls l).map fun c => Ev.ret c.1 content) id ≠ 0 := by
          rw [cntRet_retMap]
          exact fun hz => (List.count_eq_zero.mp hz) hpend
        obtain ⟨c2, pr2, po2, hsplit2⟩ := exists_ret_split hne
        refine ⟨post1 ++ pr2, c2, po2, ?_, ?_⟩
        · rw [hpost, hsplit2]
          simp [List.append_assoc]
        · refine noUser_append.mpr ⟨hnu, ?_⟩
          intro e he
          refine noUser_retMap (unansweredCalls l) content e ?_
          rw [hsplit2]
          exact List.mem_append_left _ he
    · constructor
      · have hnm : id ∉ (unansweredCalls l).map Prod.fst := by
          intro hm
          have := cntRet_of_mem_unanswered l id hm
          rw [this] at h1
          simp at h1
        rw [cntRet_append, h1, cntRet_retMap, List.count_eq_zero.mpr hnm]
      · refine ⟨mid, c, rest ++ (unansweredCalls l).map fun c => Ev.ret c.1 content, ?_, hnu⟩
        rw [hpost, hsplit]
        simp [List.append_assoc]
  · exfalso
    have hmem : Ev.call id name ∈ (unansweredCalls l).map fun c => Ev.ret c.1 content := by
      rw [hp]
      simp
    rcases List.mem_map.mp hmem with ⟨c, _, hc⟩
    simp at hc

/-- The invariant after `patch_tool_messages`. -/
theorem answered_patch (msgs : List Entry) (content : String)
    (hinv : InvEv (events msgs))
    (hnd : nodupB (unansweredIds (events msgs)) = true) :
    Answered (events (patch_tool_messages content msgs)) := by
  have h := answered_patch_events (events msgs) content hinv hnd
  rw [patch_tool_messages, events_append, events_retEntries]
  exact h

theorem contains_eq_false_of_not_mem {l : List String} {x : String} (h : x ∉ l) :
    l.contains x = false := by
  cases hb : l.contains x
  · rfl
  · exact absurd (List.elem_iff.mp hb) h

/-- Main induction: processing a well-formed, fresh node stream from an
invariant-satisfying transcript leaves the transcript answered on
completion and on abort (with the abort patch applied), and still
invariant-satisfying — ready for the lifecycle's own patch — on a model
error. -/
theorem runNodes_invariant (deny : String → Bool) (nodes : List Node) :
    ∀ msgs : List Entry,
      wfNodes nodes (unansweredIds (events msgs)) = true →
      freshStream nodes (events msgs) = true →
      InvEv (events msgs) →
      nodupB (unansweredIds (events msgs)) = true →
      ((runNodes deny nodes msgs).2 = TurnEnd.completed →
        Answered (events (runNodes deny nodes msgs).1)) ∧
      ((runNodes deny nodes msgs).2 = TurnEnd.aborted →
        Answered (events (runNodes deny nodes msgs).1) ∧
        ∃ pre, (runNodes deny nodes msgs).1 =
          patch_tool_messages "Operation aborted by user." pre) ∧
      (∀ m, (runNodes deny nodes msgs).2 = TurnEnd.modelError m →
        InvEv (events (runNodes deny nodes msgs).1) ∧
        nodupB (unansweredIds (events (runNodes deny nodes msgs).1)) = true) := by
  induction nodes with
  | nil =>
    intro msgs hwf _ hinv hnd
    refine ⟨fun _ => ?_, fun h => ?_, fun m h => ?_⟩
    · exact answered_of_no_unanswered hinv (by
        simpa [wfNodes, List.isEmpty_iff] using hwf)
    · simp [runNodes] at h
    · simp [runNodes] at h
  | cons nd rest ih =>
    intro msgs hwf hfr hinv hnd
    cases nd with
    | failure m =>
      refine ⟨fun h => ?_, fun h => ?_, fun m2 _ => ?_⟩
      · simp [runNodes] at h
      · simp [runNodes] at h
      · exact ⟨hinv, hnd⟩
    | request ps =>
      simp only [wfNodes, Bool.and_eq_true] at hwf
      obtain ⟨⟨⟨huserB, hsubB⟩, hRnB⟩, hwfrest⟩ := hwf
      have hsub : ∀ id ∈ retIdsOfParts ps, id ∈ unansweredIds (events msgs) := by
        intro id hid
        exact List.elem_iff.mp ((List.all_eq_true.mp hsubB) id hid)
      have hR0 : ∀ id ∈ retIdsOfParts ps, cntRet (events msgs) id = 0 :=
        fun id hid => cntRet_of_mem_unanswered _ id (hsub id hid)
      have huser : hasUserPrompt ps = true → unansweredIds (events msgs) = [] := by
        intro hu
        rw [hu] at huserB
        simpa [List.isEmpty_iff] using huserB
      have hev : events (msgs ++ [Entry.request ps]) =
          events msgs ++ entryEvents (Entry.request ps) := by
        rw [events_append, events_singleton]
      have hinv2 : InvEv (events (msgs ++ [Entry.request ps])) := by
        rw [hev]
        exact invEv_step_request ps hinv hR0 hRnB huser
      have hun2 : unansweredIds (events (msgs ++ [Entry.request ps])) =
          (unansweredIds (events msgs)).filter fun id =>
            !(retIdsOfParts ps).contains id := by
        rw [hev, unansweredIds_after_request]
      have hwf2 : wfNodes rest (unansweredIds (events (msgs ++ [Entry.request ps]))) = true := by
        rw [hun2]
        exact hwfrest
      have hnd2 : nodupB (unansweredIds (events (msgs ++ [Entry.request ps]))) = true := by
        rw [hun2, nodupB_iff]
        exact (nodupB_iff.mp hnd).filter _
      have hfr2 : freshStream rest (events (msgs ++ [Entry.request ps])) = true := by
        simp only [freshStream, Bool.and_eq_true, List.all_eq_true] at hfr ⊢
        obtain ⟨hfr1, hfra⟩ := hfr
        refine ⟨hfr1, fun id hid => ?_⟩
        have hnotused := hfra id hid
        rw [Bool.not_eq_true'] at hnotused ⊢
        have h1 : id ∉ usedIds (events msgs) := not_mem_of_contains_eq_false hnotused
        have h2 : id ∉ retIdsOfParts ps := fun hm =>
          h1 (unansweredIds_subset_used (hsub id hm))
        apply contains_eq_false_of_not_mem
        rw [hev, usedIds_append, usedIds_request]
        intro hm
        rcases List.mem_append.mp hm with hm1 | hm1
        · exact h1 hm1
        · exact h2 hm1
      have step := ih (msgs ++ [Entry.request ps]) hwf2 hfr2 hinv2 hnd2
      simpa only [runNodes] using step
    | response ps =>
      simp only [freshStream, Bool.and_eq_true, List.all_eq_true] at hfr
      obtain ⟨hndB, hfreshB⟩ := hfr
      have hstream : streamCallIds (Node.response ps :: rest) =
          callIdsOfParts ps ++ streamCallIds rest := rfl
      rw [hstream] at hndB hfreshB
      have hndPair := List.nodup_append.mp (nodupB_iff.mp hndB)
      have hfreshCall : ∀ id ∈ callIdsOfParts ps, id ∉ usedIds (events msgs) := by
        intro id hid
        have := hfreshB id (List.mem_append_left _ hid)
        rw [Bool.not_eq_true'] at this
        exact not_mem_of_contains_eq_false this
      have hfreshCnt : ∀ id ∈ callIdsOfParts ps, cntRet (events msgs) id = 0 :=
        fun id hid => cntRet_eq_zero_of_not_used (hfreshCall id hid)
      have hev : events (msgs ++ [Entry.response ps]) =
          events msgs ++ entryEvents (Entry.response ps) := by
        rw [events_append, events_singleton]
      have hinv2 : InvEv (events (msgs ++ [Entry.response ps])) := by
        rw [hev]
        exact invEv_step_response ps hinv hfreshCnt
      have hun2 : unansweredIds (events (msgs ++ [Entry.response ps])) =
          unansweredIds (events msgs) ++ callIdsOfParts ps := by
        rw [hev]
        exact unansweredIds_after_response _ ps hfreshCnt
      have hnd2 : nodupB (unansweredIds (events (msgs ++ [Entry.response ps]))) = true := by
        rw [hun2, nodupB_iff, List.nodup_append]
        refine ⟨nodupB_iff.mp hnd, hndPair.1, ?_⟩
        intro a ha hb
        exact hfreshCall a hb (unansweredIds_subset_used ha)
      by_cases hdeny : ps.any (partDenied deny) = true
      · have hrun : runNodes deny (Node.response ps :: rest) msgs =
            (patch_tool_messages "Operation aborted by user." (msgs ++ [Entry.response ps]),
              TurnEnd.aborted) := by
          simp [runNodes, hdeny]
        rw [hrun]
        refine ⟨fun h => by simp at h, fun _ => ?_, fun m h => by simp at h⟩
        exact ⟨answered_patch _ _ hinv2 hnd2, ⟨msgs ++ [Entry.response ps], rfl⟩⟩
      · have hwf2 : wfNodes rest
            (unansweredIds (events (msgs ++ [Entry.response ps]))) = true := by
          simp only [wfNodes] at hwf
          rw [hun2]
          exact hwf
        have hfr2 : freshStream rest (events (msgs ++ [Entry.response ps])) = true := by
          simp only [freshStream, Bool.and_eq_true, List.all_eq_true]
          refine ⟨nodupB_iff.mpr hndPair.2.1, fun id hid => ?_⟩
          rw [Bool.not_eq_true']
          apply contains_eq_false_of_not_mem
          rw [hev, usedIds_append, usedIds_response]
          intro hm
          rcases List.mem_append.mp hm with hm1 | hm1
          · have := hfreshB id (List.mem_append_right _ hid)
            rw [Bool.not_eq_true'] at this
            exact not_mem_of_contains_eq_false this hm1
          · exact hndPair.2.2 hm1 hid
        have step := ih (msgs ++ [Entry.response ps]) hwf2 hfr2 hinv2 hnd2
        have hrun : runNodes deny (Node.response ps :: rest) msgs =
            runNodes deny rest (msgs ++ [Entry.response ps]) := by
          rw [Bool.not_eq_true] at hdeny
          simp [runNodes, hdeny]
        rw [hrun]
        exact step

theorem answered_events_nil : Answered (events ([] : List Entry)) := by
  intro pre id name post h
  simp [events] at h

/-- C1: answered-tool-calls invariant.  For every turn driven by
`repl.process_request` over the streamed node driver — however it ends:
completed, aborted on a denied tool call, or a model-behaviour error —
every tool-call part appended to the message history has exactly one
matching tool-return with the same `tool_call_id` appended before the
next user turn; and on deny the transcript is the patch's output, whose
synthetic returns carry content "Operation aborted by user.".  The
hypotheses are the Agent Binding's streaming contract: the prior
transcript satisfies the invariant, returns answer pending calls at
most once each, user prompts only appear while nothing is pending, the
stream completes only with all calls answered, and streamed call ids
are fresh and pairwise distinct. -/
theorem answered_tool_calls_invariant (deny : String → Bool) (nodes : List Node)
    (finalAnswer text : String) (outputFlag : Bool) (s : SessionState)
    (h0 : Answered (events s.messages))
    (hwf : wfNodes nodes (unansweredIds (events s.messages)) = true)
    (hfresh : freshStream nodes (events s.messages) = true) :
    ∃ s1 tr,
      process_request (agentRun deny nodes finalAnswer) text outputFlag s = .ok (s1, tr) ∧
      Answered (events s1.messages) ∧
      ((runNodes deny nodes s.messages).2 = TurnEnd.aborted →
        ∃ pre, s1.messages = patch_tool_messages "Operation aborted by user." pre) := by
  have hinv := invEv_of_answered h0
  have hun := unanswered_nil_of_answered h0
  have hnd : nodupB (unansweredIds (events s.messages)) = true := by
    rw [hun]
    rfl
  obtain ⟨hc, ha, hm⟩ := runNodes_invariant deny nodes s.messages hwf hfresh hinv hnd
  rcases hrn : runNodes deny nodes s.messages with ⟨m, e⟩
  rw [hrn] at hc ha hm
  cases e with
  | completed =>
    have hcc : Answered (events m) := hc rfl
    simp only [process_request, agentRun, hrn]
    refine ⟨_, _, rfl, hcc, ?_⟩
    intro habs
    simp at habs
  | aborted =>
    have haa := ha rfl
    simp only [process_request, agentRun, hrn]
    exact ⟨_, _, rfl, haa.1, fun _ => haa.2⟩
  | modelError msg =>
    have hmm := hm msg rfl
    simp only [process_request, agentRun, hrn]
    refine ⟨_, _, rfl, answered_patch m msg hmm.1 hmm.2, ?_⟩
    intro habs
    simp at habs

/-- Witness for C1: a turn over an empty transcript whose single
`run_command` tool call the user denies — the turn aborts and the
transcript is patched. -/
theorem answered_tool_calls_invariant_witness :
    ∃ s1 tr,
      process_request
          (agentRun (fun _ => true)
            [Node.request [ReqPart.userPrompt "hi"],
             Node.response [RespPart.toolCall "c1" "run_command"
               (ArgsVal.pydict [("command", Json.str "ls")])],
             Node.request [ReqPart.toolReturn "c1" "run_command" "ok"]] "done")
          "hi" true {} = .ok (s1, tr) ∧
      Answered (events s1.messages) ∧
      ((runNodes (fun _ => true)
          [Node.request [ReqPart.userPrompt "hi"],
           Node.response [RespPart.toolCall "c1" "run_command"
             (ArgsVal.pydict [("command", Json.str "ls")])],
           Node.request [ReqPart.toolReturn "c1" "run_command" "ok"]]
          ({} : SessionState).messages).2 = TurnEnd.aborted →
        ∃ pre, s1.messages = patch_tool_messages "Operation aborted by user." pre) :=
  answered_tool_calls_invariant (fun _ => true)
    [Node.request [ReqPart.userPrompt "hi"],
     Node.response [RespPart.toolCall "c1" "run_command"
       (ArgsVal.pydict [("command", Json.str "ls")])],
     Node.request [ReqPart.toolReturn "c1" "run_command" "ok"]] "done" "hi" true {}
    answered_events_nil (by decide) (by decide)

end Sidekick
